import Mathlib

/-!
Shallow embedding of `src/process_playlist.py` (SonGharLive).

Strings are modelled as `List Char` (`Str`).  Python's `str.strip()` is
modelled over the ASCII whitespace characters; `str.lower()` is modelled by
`Char.toLower` (these agree on the ASCII inputs the program manipulates).
The regex searches of the source (`re.search`) are modelled by explicit
leftmost-occurrence scans, shown below to match the regexes used:
`attr="([^"]*)"` and `,(.+)$` on a single line.
-/

namespace SonGhar

abbrev Str := List Char

def str (s : String) : Str := s.toList

/-- ASCII whitespace, the characters `str.strip()` removes on ASCII text. -/
def isSpaceChar (c : Char) : Bool :=
  c = ' ' || c = '\t' || c = '\n' || c = '\r' || c = Char.ofNat 11 || c = Char.ofNat 12

/-- Python `s.strip()`. -/
def strip (s : Str) : Str :=
  ((s.dropWhile isSpaceChar).reverse.dropWhile isSpaceChar).reverse

/-- Python `s.split('\n')` (keeps empty segments, never returns `[]`). -/
def splitNl : Str → List Str
  | [] => [[]]
  | c :: t =>
    if c = '\n' then [] :: splitNl t
    else
      match splitNl t with
      | [] => [[c]]
      | h :: r => (c :: h) :: r

def lowerStr (s : Str) : Str := s.map Char.toLower

/-- Is `pat` a contiguous substring of `s` (Python `pat in s`)? -/
def containsSub (pat : Str) : Str → Bool
  | [] => pat.isEmpty
  | s@(_ :: t) => pat.isPrefixOf s || containsSub pat t

/-- Python `any(word in n for word in kws)`. -/
def containsAny (n : Str) (kws : List Str) : Bool := kws.any (fun k => containsSub k n)

/-- The keyword lists of `detect_category`, in source order. -/
def sportsKws : List Str :=
  [str "sports", str "ten 1", str "ten 2", str "ten 3", str "ten 4", str "ten 5", str "six"]

def moviesKws : List Str := [str "max", str "pix", str "wah", str "movie"]

def kidsKws : List Str := [str "yay", str "kids", str "cartoon"]

def regionalKws : List Str :=
  [str "marathi", str "aath", str "bengali", str "tamil", str "telugu", str "kannada"]

def entertainmentKws : List Str :=
  [str "set", str "sab", str "pal", str "sony tv", str "entertainment"]

def newsKws : List Str := [str "news", str "aaj tak", str "india tv", str "ndtv"]

def musicKws : List Str := [str "music", str "mtv", str "vh1", str "9xm"]

/-- The classifier `detect_category` from the source: ordered keyword rules, first match wins. -/
def detect_category (channel_name : Str) : Str :=
  let n := lowerStr channel_name
  if containsAny n sportsKws then str "Sports"
  else if containsAny n moviesKws then str "Movies"
  else if containsAny n kidsKws then str "Kids"
  else if containsAny n regionalKws then str "Regional"
  else if containsAny n entertainmentKws then str "Entertainment"
  else if containsAny n newsKws then str "News"
  else if containsAny n musicKws then str "Music"
  else str "Entertainment"

/-- Leftmost occurrence of `pat` in `s`; returns the remainder after `pat`.
    Models the position search of `re.search`. -/
def findTail (pat : Str) : Str → Option Str
  | [] => if pat.isEmpty then some [] else none
  | s@(_ :: t) => if pat.isPrefixOf s then some (s.drop pat.length) else findTail pat t

/-- Models `re.search(attr ++ '="([^"]*)"', line)`: leftmost occurrence of the literal
    `attr="` that is followed (somewhere) by a closing quote; the capture is the
    run of non-quote characters between them.  (If the leftmost literal
    occurrence has no closing quote after it, no later occurrence can have one
    either, so the leftmost-literal model is exactly the regex's behavior.) -/
def attrValue (attr : Str) (line : Str) : Option Str :=
  match findTail (attr ++ str "=\x22") line with
  | none => none
  | some rest =>
    if rest.any (fun c => c = '\x22') then some (rest.takeWhile (fun c => c ≠ '\x22'))
    else none

/-- Models `re.search(r',(.+)$', line)`: leftmost comma with a non-empty tail; the
    capture is everything after that comma (it may itself contain commas). -/
def nameAfterComma : Str → Option Str
  | [] => none
  | c :: t => if c = ',' ∧ t ≠ [] then some t else nameAfterComma t

structure Channel where
  tvg_id : Option Str := none
  tvg_name : Option Str := none
  tvg_logo : Option Str := none
  group_title : Option Str := none
  name : Option Str := none
  url : Option Str := none
deriving DecidableEq, Repr

/-- The `group_title` the parser stores from the attribute alone: the stripped
    captured value when the capture strips to non-empty, else nothing
    (line 83 of the source: `if group_match and group_match.group(1).strip()`). -/
def rawGroupTitle (line : Str) : Option Str :=
  match attrValue (str "group-title") line with
  | some v => if strip v ≠ [] then some (strip v) else none
  | none => none

/-- The `channel_info` dictionary built for one (already stripped) `#EXTINF:`
    line in `parse_m3u`, before the URL is attached. -/
def extractInfo (line : Str) : Channel :=
  { tvg_id := attrValue (str "tvg-id") line
    tvg_name := attrValue (str "tvg-name") line
    tvg_logo := attrValue (str "tvg-logo") line
    group_title :=
      match (nameAfterComma line).map strip with
      | some n =>
        match rawGroupTitle line with
        | some g => some g
        | none => some (detect_category n)
      | none => rawGroupTitle line
    name := (nameAfterComma line).map strip
    url := none }

/-- The scanning loop of `parse_m3u` over the split lines: an `#EXTINF:` line
    followed by a non-empty non-comment line emits a record and skips both
    lines; otherwise scanning resumes at the very next line. -/
def parseLines : List Str → List Channel
  | [] => []
  | [_] => []
  | l :: next :: rest =>
    let line := strip l
    if (str "#EXTINF:").isPrefixOf line then
      let url := strip next
      if url ≠ [] ∧ ¬ (str "#").isPrefixOf url then
        { extractInfo line with url := some url } :: parseLines rest
      else parseLines (next :: rest)
    else parseLines (next :: rest)

/-- The parser `parse_m3u`: strip the content, split on newlines, scan. -/
def parse_m3u (content : Str) : List Channel :=
  parseLines (splitNl (strip content))

/-! ## `create_m3u`, the playlist serializer -/

/-- The grouping key, `channel.get('group_title', 'Entertainment')`. -/
def effCat (ch : Channel) : Str := ch.group_title.getD (str "Entertainment")

/-- The bucket `categories[c]`: the channels of one category, in source order.
    (CPython's `defaultdict` bucket is exactly the in-order filter.) -/
def bucket (chs : List Channel) (c : Str) : List Channel :=
  chs.filter (fun ch => effCat ch = c)

/-- The set of categories present.  CPython's dict iterates keys in first-
    appearance order; here `dedup` is used instead — the key list only feeds
    membership tests and a sort below, so its internal order is immaterial. -/
def presentCats (chs : List Channel) : List Str := (chs.map effCat).dedup

def category_order : List Str :=
  [str "Entertainment", str "Movies", str "Sports", str "Kids",
   str "Regional", str "News", str "Music"]

/-- Python string `<=`: lexicographic by code point. -/
def strLe : Str → Str → Bool
  | [], _ => true
  | _ :: _, [] => false
  | a :: as, b :: bs => if a.toNat < b.toNat then true else if a = b then strLe as bs else false

def strLeProp (a b : Str) : Prop := strLe a b = true

instance : DecidableRel strLeProp := fun a b => by unfold strLeProp; infer_instance

/-- Python `sorted` on the string keys. -/
def sortStr (l : List Str) : List Str := List.insertionSort strLeProp l

/-- The output category order `sorted_categories`: the preferred order filtered to present categories,
    then the remaining present categories sorted alphabetically. -/
def sorted_categories (chs : List Channel) : List Str :=
  (category_order.filter (fun c => c ∈ presentCats chs))
    ++ sortStr ((presentCats chs).filter (fun c => c ∉ category_order))

/-- The `#EXTINF` line rebuilt by `create_m3u` for one channel. -/
def renderExtinf (ch : Channel) : Str :=
  str "#EXTINF:-1"
  ++ (match ch.tvg_id with
      | some v => str " tvg-id=\x22" ++ v ++ [Char.ofNat 34]
      | none => [])
  ++ (match ch.tvg_name with
      | some v => str " tvg-name=\x22" ++ v ++ [Char.ofNat 34]
      | none => [])
  ++ (match ch.tvg_logo with
      | some v => str " tvg-logo=\x22" ++ v ++ [Char.ofNat 34]
      | none => [])
  ++ (match ch.group_title with
      | some v => str " group-title=\x22" ++ v ++ [Char.ofNat 34]
      | none => [])
  ++ [','] ++ ch.name.getD (str "Unknown")

/-- The three output lines `create_m3u` writes per channel: the rebuilt
    `#EXTINF` line, the URL line, and the blank separator line. -/
def channelLines (ch : Channel) : List Str :=
  [renderExtinf ch, ch.url.getD [], []]

/-- One category section: separator comment, the bucket's channels, and the
    extra blank line appended after the bucket. -/
def sectionLines (chs : List Channel) (c : Str) : List Str :=
  (str "# ========== " ++ c ++ str " ==========")
    :: ((bucket chs c).flatMap channelLines ++ [[]])

/-- The fixed header block of `create_m3u` (its literal ends with a blank
    line), as lines. -/
def headerLines : List Str :=
  [str "#EXTM3U x-tvg-url=\x22https://www.tsepg.cf/epg.xml.gz\x22",
   str "# ===============================",
   str "#  StreamFlex™ Official Playlist",
   str "#  AU • Secure • Private",
   str "#  Join: https://t.me/streamflex19",
   str "# ===============================",
   []]

/-- The fixed footer block of `create_m3u`, as lines. -/
def footerLines : List Str :=
  [str "# =====================================",
   str "# Generated by StreamFlex",
   str "# Thank you",
   str "# ====================================="]

/-- All lines of the serialized playlist, in order. -/
def create_m3u_lines (chs : List Channel) : List Str :=
  headerLines ++ (sorted_categories chs).flatMap (sectionLines chs) ++ footerLines

/-- Join lines back into text; `create_m3u` terminates every line with `\n`. -/
def joinNl (ls : List Str) : Str := ls.flatMap (fun l => l ++ ['\n'])

/-- The serializer `create_m3u`: the complete serialized playlist text. -/
def create_m3u (chs : List Channel) : Str := joinNl (create_m3u_lines chs)

/-! ## `create_json`, the catalog serializer

The generation timestamp (`datetime.utcnow()`) is an opaque environment
reading and is not modelled; no claim concerns it.  JSON rendering
(`json.dumps`) is likewise kept as the structured document itself. -/

structure JChannel where
  name : Str
  tvg_id : Str
  tvg_name : Str
  logo : Str
  group : Str
  url : Str
deriving DecidableEq, Repr

/-- The normalized per-channel object `create_json` emits (missing optional
    fields become empty strings; `name` defaults to `"Unknown"`). -/
def jchannelOf (c : Str) (ch : Channel) : JChannel :=
  { name := ch.name.getD (str "Unknown")
    tvg_id := ch.tvg_id.getD []
    tvg_name := ch.tvg_name.getD []
    logo := ch.tvg_logo.getD []
    group := c
    url := ch.url.getD [] }

structure Catalog where
  total_channels : Nat
  total_categories : Nat
  categories : List (Str × Nat × List JChannel)
  all_channels : List JChannel
deriving DecidableEq, Repr

/-- The catalog serializer `create_json`: group by category, emit alphabetical per-category entries
    with counts, plus the flat `all_channels` list in original order. -/
def create_json (chs : List Channel) : Catalog :=
  { total_channels := chs.length
    total_categories := (presentCats chs).length
    categories :=
      (sortStr (presentCats chs)).map
        (fun c => (c, (bucket chs c).length, (bucket chs c).map (jchannelOf c)))
    all_channels := chs.map (fun ch => jchannelOf (effCat ch) ch) }

/-! ## The classifier as an ordered rule table (spec, §4.3)

The spec describes the classifier as an ordered list of (label, keyword-set)
pairs evaluated in fixed order, first match wins, with a default label.
`tableClassify`/`classifyRulesSpec` transcribe that description, to be
compared against `detect_category` from the source. -/

def tableClassify : List (Str × List Str) → Str → Str
  | [], _ => str "Entertainment"
  | r :: rs, name => if containsAny (lowerStr name) r.2 then r.1 else tableClassify rs name

/-- The spec's rule table, in the spec's order. -/
def classifyRulesSpec : List (Str × List Str) :=
  [(str "Sports", sportsKws), (str "Movies", moviesKws), (str "Kids", kidsKws),
   (str "Regional", regionalKws), (str "Entertainment", entertainmentKws),
   (str "News", newsKws), (str "Music", musicKws)]

/-- The labels of the spec's 8 rules (the 8th, default rule reuses
    "Entertainment", so 7 distinct labels). -/
def classifierLabels : List Str :=
  [str "Sports", str "Movies", str "Kids", str "Regional",
   str "Entertainment", str "News", str "Music"]

/-- Modelled from the spec's words: "everything after the last comma on the
    line, trimmed of surrounding whitespace"; no comma → no name. -/
def specNameAfterLastComma (line : Str) : Option Str :=
  if ',' ∈ line then some (strip ((line.reverse.takeWhile (fun c => c ≠ ',')).reverse))
  else none


/-! ## Claim C2: definitions

`iJoin` joins lines with single newlines (no trailing newline); `optAttr` and
`attrsPart` name the pieces of `renderExtinf`; `Good` is the (decidable)
well-formedness condition on channel records under which the round-trip is
proved; `tripleOfCat` extracts the (name, category, url) triples of one
category, in order. -/

def iJoin : List Str → Str
  | [] => []
  | [l] => l
  | l :: ls => l ++ '\n' :: iJoin ls

def optAttr (label : Str) (v : Option Str) : Str :=
  match v with
  | some v => label ++ str "=\x22" ++ v ++ [Char.ofNat 34]
  | none => []

/-- The serialized `#EXTINF` line up to (excluding) the group-title attribute. -/
def attrsPart (ch : Channel) : Str :=
  str "#EXTINF:-1" ++ optAttr (str " tvg-id") ch.tvg_id
    ++ optAttr (str " tvg-name") ch.tvg_name ++ optAttr (str " tvg-logo") ch.tvg_logo

/-- No comma and no newline in an optional attribute value. -/
def GoodVal (v : Option Str) : Prop :=
  ',' ∉ v.getD [] ∧ '\n' ∉ v.getD []

instance (v : Option Str) : Decidable (GoodVal v) := by
  unfold GoodVal
  infer_instance

/-- Well-formedness of a channel record for the round-trip: name, category
    and url present, non-empty, strip-invariant and newline-free; the
    category also comma- and quote-free; attribute values comma- and
    newline-free; and the serialized attribute block contains exactly one
    occurrence of the `group-title="` marker (at the attribute itself). -/
structure Good (ch : Channel) : Prop where
  nameS : ch.name ≠ none
  gtS : ch.group_title ≠ none
  urlS : ch.url ≠ none
  nameNe : ch.name.getD [] ≠ []
  nameStrip : strip (ch.name.getD []) = ch.name.getD []
  nameNl : '\n' ∉ ch.name.getD []
  gtNe : ch.group_title.getD [] ≠ []
  gtStrip : strip (ch.group_title.getD []) = ch.group_title.getD []
  gtQuote : Char.ofNat 34 ∉ ch.group_title.getD []
  gtComma : ',' ∉ ch.group_title.getD []
  gtNl : '\n' ∉ ch.group_title.getD []
  urlNe : ch.url.getD [] ≠ []
  urlStrip : strip (ch.url.getD []) = ch.url.getD []
  urlHash : (str "#").isPrefixOf (ch.url.getD []) = false
  urlNl : '\n' ∉ ch.url.getD []
  idVal : GoodVal ch.tvg_id
  nameVal : GoodVal ch.tvg_name
  logoVal : GoodVal ch.tvg_logo
  gtMarker : findTail (str "group-title=\x22") (attrsPart ch ++ str " group-title=\x22") = some []

/-- The (name, category, url) triples of the records of category `c`,
    in order. -/
def tripleOfCat (c : Str) (chs : List Channel) : List (Option Str × Option Str × Option Str) :=
  (chs.filter (fun ch => ch.group_title = some c)).map (fun ch => (ch.name, ch.group_title, ch.url))


/-- A concrete well-formed channel record for the C2 witness. -/
def exC2ch : Channel :=
  { tvg_id := some (str "t1"), tvg_name := none, tvg_logo := none,
    group_title := some (str "Sports"), name := some (str "Ten 1 HD"),
    url := some (str "http://x/1") }


lemma extractInfo_name (line : Str) :
    (extractInfo line).name = (nameAfterComma line).map strip := rfl

lemma extractInfo_group_title (line : Str) :
    (extractInfo line).group_title
      = match (nameAfterComma line).map strip with
        | some n =>
          match rawGroupTitle line with
          | some g => some g
          | none => some (detect_category n)
        | none => rawGroupTitle line := rfl

/-! ## Claims C3 and C7 -/

/-- Claim C3: `detect_category` is exactly the ordered rule table Sports,
Movies, Kids, Regional, Entertainment, News, Music with first match winning
(and "Entertainment" as default); in particular any name matching a Sports
keyword — whether or not it also matches a Movies keyword, e.g. a name
containing both "ten 1" and "movie" — classifies as "Sports". -/
theorem c3_rule_order :
    (∀ name, detect_category name = tableClassify classifyRulesSpec name)
    ∧ (∀ name, containsAny (lowerStr name) sportsKws = true
        → containsAny (lowerStr name) moviesKws = true
        → detect_category name = str "Sports") := by
  constructor
  · intro name
    simp only [detect_category, tableClassify, classifyRulesSpec]
  · intro name hs _
    simp only [detect_category, hs, if_true]

/-- Witness for C3 at the name "Ten 1 Movie". -/
theorem c3_rule_order_witness :
    containsAny (lowerStr (str "Ten 1 Movie")) sportsKws = true
    ∧ containsAny (lowerStr (str "Ten 1 Movie")) moviesKws = true
    ∧ detect_category (str "Ten 1 Movie") = str "Sports" :=
  ⟨by decide, by decide, c3_rule_order.2 (str "Ten 1 Movie") (by decide) (by decide)⟩

/-- Claim C7: `detect_category` is total and deterministic (a pure function:
equal names give equal labels), its result is always one of the labels of the
spec's 8 rules, and when no keyword rule matches it returns "Entertainment". -/
theorem c7_classifier_total :
    (∀ name name2, name = name2 → detect_category name = detect_category name2)
    ∧ (∀ name, detect_category name ∈ classifierLabels)
    ∧ (∀ name, containsAny (lowerStr name) sportsKws = false
        → containsAny (lowerStr name) moviesKws = false
        → containsAny (lowerStr name) kidsKws = false
        → containsAny (lowerStr name) regionalKws = false
        → containsAny (lowerStr name) entertainmentKws = false
        → containsAny (lowerStr name) newsKws = false
        → containsAny (lowerStr name) musicKws = false
        → detect_category name = str "Entertainment") := by
  refine ⟨fun _ _ h => by rw [h], fun name => ?_, fun name h1 h2 h3 h4 h5 h6 h7 => ?_⟩
  · simp only [detect_category, classifierLabels]
    repeat' split
    all_goals simp
  · simp [detect_category, h1, h2, h3, h4, h5, h6, h7]

/-- Witness for C7 at the name "zz" (no rule matches). -/
theorem c7_classifier_total_witness :
    containsAny (lowerStr (str "zz")) sportsKws = false
    ∧ detect_category (str "zz") = str "Entertainment" :=
  ⟨by decide,
   c7_classifier_total.2.2 (str "zz") (by decide) (by decide) (by decide) (by decide)
     (by decide) (by decide) (by decide)⟩

/-! ## Claim C9 -/

lemma sum_bucket_lengths (chs : List Channel) :
    ((presentCats chs).map (fun c => (bucket chs c).length)).sum = chs.length := by
  have base : ((chs.map effCat).dedup.map
      (fun c => (chs.map effCat).countP (fun x => decide (x = c)))).sum
        = (chs.map effCat).length := by
    have h := List.sum_map_count_dedup_eq_length (chs.map effCat)
    simp only [List.count_eq_countP] at h
    exact h
  have hb : ∀ c, (bucket chs c).length = (chs.map effCat).countP (fun x => decide (x = c)) := by
    intro c
    simp only [bucket, ← List.countP_eq_length_filter, List.countP_map]
    exact List.countP_congr fun ch _ => Iff.rfl
  simp only [presentCats, hb]
  exact base.trans (List.length_map _ _)

/-- Claim C9: In the catalog produced by `create_json`, the total-channel count
equals the length of the flat `all_channels` list, and the per-category counts
sum to that same total. -/
theorem c9_catalog_counts (chs : List Channel) :
    (create_json chs).total_channels = (create_json chs).all_channels.length
    ∧ ((create_json chs).categories.map (fun e => e.2.1)).sum
        = (create_json chs).total_channels := by
  constructor
  · simp [create_json]
  · have hperm : List.Perm (sortStr (presentCats chs)) (presentCats chs) :=
      List.perm_insertionSort strLeProp (presentCats chs)
    simp only [create_json, List.map_map]
    have hfun : ((fun e : Str × Nat × List JChannel => e.2.1)
        ∘ fun c => (c, (bucket chs c).length, (bucket chs c).map (jchannelOf c)))
        = fun c => (bucket chs c).length := rfl
    rw [hfun]
    exact ((hperm.map _).sum_eq).trans (sum_bucket_lengths chs)

/-! ## Order facts about `strLe` (Python string `<=`), for claim C8 -/

lemma strLe_cons_cons (x y : Char) (xs ys : Str) :
    strLe (x :: xs) (y :: ys)
      = if x.toNat < y.toNat then true else if x = y then strLe xs ys else false := rfl

lemma char_toNat_inj {x y : Char} (h : x.toNat = y.toNat) : x = y := by
  have hx := Char.ofNat_toNat x
  rw [h, Char.ofNat_toNat y] at hx
  exact hx.symm

lemma strLe_total : ∀ a b : Str, strLe a b = true ∨ strLe b a = true := by
  intro a
  induction a with
  | nil => intro b; left; rfl
  | cons x xs ih =>
    intro b
    cases b with
    | nil => right; rfl
    | cons y ys =>
      rw [strLe_cons_cons, strLe_cons_cons]
      rcases Nat.lt_trichotomy x.toNat y.toNat with h | h | h
      · left; simp [h]
      · have hxy : x = y := char_toNat_inj h
        subst hxy
        rcases ih ys with h2 | h2
        · left; simp [h2]
        · right; simp [h2]
      · right; simp [h]

lemma strLe_trans : ∀ a b c : Str, strLe a b = true → strLe b c = true → strLe a c = true := by
  intro a
  induction a with
  | nil => intro b c _ _; rfl
  | cons x xs ih =>
    intro b c hab hbc
    cases b with
    | nil => simp [strLe] at hab
    | cons y ys =>
      cases c with
      | nil => simp [strLe] at hbc
      | cons z zs =>
        rw [strLe_cons_cons] at hab hbc ⊢
        by_cases h1 : x.toNat < y.toNat
        · by_cases h2 : y.toNat < z.toNat
          · simp [Nat.lt_trans h1 h2]
          · rw [if_neg h2] at hbc
            by_cases h3 : y = z
            · subst h3; simp [h1]
            · simp [h3] at hbc
        · rw [if_neg h1] at hab
          by_cases h4 : x = y
          · subst h4
            rw [if_pos rfl] at hab
            by_cases h2 : x.toNat < z.toNat
            · simp [h2]
            · rw [if_neg h2] at hbc ⊢
              by_cases h3 : x = z
              · rw [if_pos h3] at hbc ⊢
                exact ih ys zs hab hbc
              · simp [h3] at hbc ⊢
          · simp [h4] at hab

instance : IsTotal Str strLeProp := ⟨strLe_total⟩

instance : IsTrans Str strLeProp := ⟨strLe_trans⟩

lemma sortStr_pairwise (l : List Str) : (sortStr l).Pairwise strLeProp :=
  List.sorted_insertionSort strLeProp l

lemma sortStr_perm (l : List Str) : List.Perm (sortStr l) l :=
  List.perm_insertionSort strLeProp l

/-! ## Helpers about `isPrefixOf` and the category order -/

lemma isPrefixOf_extend (p : Str) : ∀ s t : Str, p.isPrefixOf s = true
    → p.isPrefixOf (s ++ t) = true := by
  induction p with
  | nil => intro s t _; simp [List.isPrefixOf]
  | cons a ps ih =>
    intro s t h
    cases s with
    | nil => simp [List.isPrefixOf] at h
    | cons b ss =>
      simp only [List.isPrefixOf, List.cons_append, Bool.and_eq_true] at h ⊢
      exact ⟨h.1, ih ss t h.2⟩

lemma joinNl_cons (l : Str) (ls : List Str) : joinNl (l :: ls) = l ++ '\n' :: joinNl ls := by
  simp [joinNl]

lemma mem_sorted_categories (chs : List Channel) (c : Str) :
    c ∈ sorted_categories chs ↔ c ∈ presentCats chs := by
  simp only [sorted_categories, List.mem_append, List.mem_filter,
    (sortStr_perm _).mem_iff, decide_eq_true_eq]
  constructor
  · rintro (⟨_, h⟩ | ⟨h, _⟩) <;> exact h
  · intro h
    by_cases hco : c ∈ category_order
    · exact Or.inl ⟨hco, h⟩
    · exact Or.inr ⟨h, by simpa using hco⟩

lemma nodup_sorted_categories (chs : List Channel) : (sorted_categories chs).Nodup := by
  refine List.Nodup.append ?_ ?_ ?_
  · exact List.Nodup.filter _ (by decide)
  · exact ((sortStr_perm _).nodup_iff).2 (List.Nodup.filter _ (List.nodup_dedup _))
  · intro c hc1 hc2
    have h1 : c ∈ category_order := (List.mem_filter.1 hc1).1
    have h2 := (List.mem_filter.1 ((sortStr_perm _).mem_iff.1 hc2)).2
    simp only [decide_eq_true_eq] at h2
    exact h2 h1

/-! ## Claim C8 -/

/-- Claim C8: `create_m3u`'s output begins with `#EXTM3U`; its category sections
are laid out in the order `sorted_categories`: the fixed preferred sequence
Entertainment, Movies, Sports, Kids, Regional, News, Music restricted to the
categories present, followed by the remaining present categories sorted
ascending (`strLe`, Python's string order); that order list contains exactly
the present categories. -/
theorem c8_serializer_order (chs : List Channel) :
    (str "#EXTM3U").isPrefixOf (create_m3u chs) = true
    ∧ create_m3u chs
        = joinNl (headerLines ++ (sorted_categories chs).flatMap (sectionLines chs)
            ++ footerLines)
    ∧ sorted_categories chs
        = category_order.filter (fun c => c ∈ presentCats chs)
          ++ sortStr ((presentCats chs).filter (fun c => c ∉ category_order))
    ∧ (sortStr ((presentCats chs).filter (fun c => c ∉ category_order))).Pairwise strLeProp
    ∧ List.Perm (sortStr ((presentCats chs).filter (fun c => c ∉ category_order)))
        ((presentCats chs).filter (fun c => c ∉ category_order))
    ∧ (∀ c, c ∈ sorted_categories chs ↔ c ∈ presentCats chs) := by
  refine ⟨?_, rfl, rfl, sortStr_pairwise _, sortStr_perm _, mem_sorted_categories chs⟩
  show (str "#EXTM3U").isPrefixOf
    (joinNl ((str "#EXTM3U x-tvg-url=\x22https://www.tsepg.cf/epg.xml.gz\x22") :: _)) = true
  rw [joinNl_cons]
  exact isPrefixOf_extend _ _ _ (by decide)

/-! ## Facts about `strip` -/

lemma getLast?_dropWhile_of_ne_nil (p : Char → Bool) (l : Str) (h : l.dropWhile p ≠ []) :
    (l.dropWhile p).getLast? = l.getLast? := by
  conv_rhs => rw [← List.takeWhile_append_dropWhile p l]
  rw [List.getLast?_append]
  have : (l.dropWhile p).getLast?.isSome := List.getLast?_isSome.2 h
  cases hd : (l.dropWhile p).getLast? with
  | none => rw [hd] at this; simp at this
  | some a => simp

lemma strip_getLast_not_space (s : Str) :
    ∀ a, (strip s).getLast? = some a → isSpaceChar a = false := by
  intro a ha
  unfold strip at ha
  rw [List.getLast?_reverse] at ha
  have h := List.head?_dropWhile_not isSpaceChar ((s.dropWhile isSpaceChar).reverse)
  rw [ha] at h
  exact h

lemma strip_head_not_space (s : Str) :
    ∀ a, (strip s).head? = some a → isSpaceChar a = false := by
  intro a ha
  unfold strip at ha
  rw [List.head?_reverse] at ha
  have hne : ((s.dropWhile isSpaceChar).reverse.dropWhile isSpaceChar) ≠ [] := by
    intro h0
    rw [h0] at ha
    simp at ha
  rw [getLast?_dropWhile_of_ne_nil _ _ hne, List.getLast?_reverse] at ha
  have h := List.head?_dropWhile_not isSpaceChar s
  rw [ha] at h
  exact h

lemma strip_eq_self (s : Str) (h1 : ∀ a, s.head? = some a → isSpaceChar a = false)
    (h2 : ∀ a, s.getLast? = some a → isSpaceChar a = false) : strip s = s := by
  unfold strip
  have hd : s.dropWhile isSpaceChar = s := by
    cases s with
    | nil => rfl
    | cons x xs =>
      have := h1 x rfl
      simp [List.dropWhile_cons, this]
  rw [hd]
  have hd2 : s.reverse.dropWhile isSpaceChar = s.reverse := by
    cases hrev : s.reverse with
    | nil => rfl
    | cons x xs =>
      have hx : s.getLast? = some x := by
        rw [List.getLast?_eq_head?_reverse, hrev]; rfl
      have := h2 x hx
      simp [List.dropWhile_cons, this]
  rw [hd2, List.reverse_reverse]

lemma strip_ne_nil (s : Str) (a : Char) (h : s.getLast? = some a)
    (ha : isSpaceChar a = false) : strip s ≠ [] := by
  have hmem : a ∈ s := List.mem_of_getLast?_eq_some h
  have hne1 : s.dropWhile isSpaceChar ≠ [] := by
    intro h0
    have := (List.dropWhile_eq_nil_iff.1 h0) a hmem
    rw [ha] at this
    exact Bool.false_ne_true this
  have hlast : (s.dropWhile isSpaceChar).getLast? = some a :=
    (getLast?_dropWhile_of_ne_nil _ _ hne1).trans h
  have hhead : (s.dropWhile isSpaceChar).reverse.head? = some a := by
    rw [List.head?_reverse]; exact hlast
  have hne2 : (s.dropWhile isSpaceChar).reverse.dropWhile isSpaceChar
      = (s.dropWhile isSpaceChar).reverse := by
    cases hrev : (s.dropWhile isSpaceChar).reverse with
    | nil => rfl
    | cons x xs =>
      rw [hrev] at hhead
      have hx : x = a := by simpa using hhead
      subst hx
      simp [List.dropWhile_cons, ha]
  unfold strip
  rw [hne2]
  simp only [ne_eq, List.reverse_eq_nil_iff, List.reverse_reverse]
  intro h0
  rw [h0] at hne1
  simp at hne1

/-! ## Facts about `nameAfterComma` -/

lemma nameAfterComma_append (pre rest : Str) (hp : ',' ∉ pre) (hr : rest ≠ []) :
    nameAfterComma (pre ++ ',' :: rest) = some rest := by
  induction pre with
  | nil => simp [nameAfterComma, hr]
  | cons c pre ih =>
    have hc : c ≠ ',' := fun h => hp (h ▸ List.mem_cons_self c pre)
    have hp' : ',' ∉ pre := fun h => hp (List.mem_cons_of_mem c h)
    simp only [List.cons_append, nameAfterComma]
    rw [if_neg (fun hand => hc hand.1)]
    exact ih hp'

lemma nameAfterComma_none (line : Str) (h : ',' ∉ line) : nameAfterComma line = none := by
  induction line with
  | nil => rfl
  | cons c t ih =>
    have hc : c ≠ ',' := fun hh => h (hh ▸ List.mem_cons_self c t)
    simp only [nameAfterComma]
    rw [if_neg (fun hand => hc hand.1)]
    exact ih (fun hh => h (List.mem_cons_of_mem c hh))

lemma nameAfterComma_some_decomp (s t : Str) (h : nameAfterComma s = some t) :
    ∃ pre, s = pre ++ ',' :: t ∧ t ≠ [] := by
  induction s with
  | nil => simp [nameAfterComma] at h
  | cons c cs ih =>
    simp only [nameAfterComma] at h
    by_cases hc : c = ',' ∧ cs ≠ []
    · rw [if_pos hc] at h
      obtain ⟨rfl⟩ := Option.some_inj.1 h
      exact ⟨[], by simp [hc.1], hc.2⟩
    · rw [if_neg hc] at h
      obtain ⟨pre, hpre, ht⟩ := ih h
      exact ⟨c :: pre, by simp [hpre], ht⟩

/-! ## Step equations for the parser loop -/

lemma parseLines_single (l : Str) : parseLines [l] = [] := rfl

lemma parseLines_skip (l : Str) (rest : List Str)
    (h : (str "#EXTINF:").isPrefixOf (strip l) = false) :
    parseLines (l :: rest) = parseLines rest := by
  cases rest with
  | nil => rfl
  | cons next r => simp [parseLines, h]

lemma parseLines_extinf_bad (l next : Str) (rest : List Str)
    (hext : (str "#EXTINF:").isPrefixOf (strip l) = true)
    (hbad : strip next = [] ∨ (str "#").isPrefixOf (strip next) = true) :
    parseLines (l :: next :: rest) = parseLines (next :: rest) := by
  have hcond : ¬ (strip next ≠ [] ∧ ¬ (str "#").isPrefixOf (strip next) = true) := by
    rcases hbad with h | h
    · exact fun hc => hc.1 h
    · exact fun hc => hc.2 h
  simp only [parseLines, hext, if_true]
  rw [if_neg hcond]

lemma parseLines_extinf_step (l next : Str) (rest : List Str)
    (hext : (str "#EXTINF:").isPrefixOf (strip l) = true)
    (hne : strip next ≠ [])
    (hnc : (str "#").isPrefixOf (strip next) = false) :
    parseLines (l :: next :: rest)
      = { extractInfo (strip l) with url := some (strip next) } :: parseLines rest := by
  simp only [parseLines, hext, if_true]
  rw [if_pos ⟨hne, by rw [hnc]; exact Bool.false_ne_true⟩]

/-! ## Claim C6 -/

/-- Claim C6: Dangling metadata: an `#EXTINF:` line that is the last line, or
whose following line is empty after trimming or starts with `#` (including
another `#EXTINF` line), contributes zero records — scanning just resumes at
the next line.  The parser never raises: `parse_m3u`/`parseLines` are total
functions, and these equations hold with no error case. -/
theorem c6_dangling_metadata :
    (∀ l, (str "#EXTINF:").isPrefixOf (strip l) = true → parseLines [l] = [])
    ∧ (∀ l next rest, (str "#EXTINF:").isPrefixOf (strip l) = true
        → (strip next = [] ∨ (str "#").isPrefixOf (strip next) = true)
        → parseLines (l :: next :: rest) = parseLines (next :: rest)) :=
  ⟨fun l _ => parseLines_single l, parseLines_extinf_bad⟩

/-- Witness for C6: an `#EXTINF` line at end of input, and one followed by
another `#EXTINF` line. -/
theorem c6_dangling_metadata_witness :
    ((str "#EXTINF:").isPrefixOf (strip (str "#EXTINF:-1,A")) = true
      ∧ parseLines [str "#EXTINF:-1,A"] = [])
    ∧ ((str "#").isPrefixOf (strip (str "#EXTINF:-1,B")) = true
      ∧ parseLines [str "#EXTINF:-1,A", str "#EXTINF:-1,B", str "http://x"]
          = parseLines [str "#EXTINF:-1,B", str "http://x"]) :=
  ⟨⟨by decide, c6_dangling_metadata.1 (str "#EXTINF:-1,A") (by decide)⟩,
   ⟨by decide,
    c6_dangling_metadata.2 (str "#EXTINF:-1,A") (str "#EXTINF:-1,B") [str "http://x"]
      (by decide) (Or.inr (by decide))⟩⟩

/-! ## Claim C4

The spec says the display name is everything after the *last* comma, and that
a comma-less metadata line yields no record.  The code's regex `,(.+)$` in
fact captures everything after the *first* comma that has a non-empty tail,
and a comma-less `#EXTINF` line still yields a (nameless) record when a URL
line follows.  `specNameAfterLastComma` transcribes the spec's words for the
comparison. -/

/-- Counterexample to C4: on `#EXTINF:-1,A,B` the code extracts the name
`A,B` (after the first comma), not `B` (after the last comma); and the
comma-less line `#EXTINF:-1` followed by a URL still yields one record. -/
theorem c4_counterexample :
    (extractInfo (str "#EXTINF:-1,A,B")).name = some (str "A,B")
    ∧ specNameAfterLastComma (str "#EXTINF:-1,A,B") = some (str "B")
    ∧ some (str "A,B") ≠ some (str "B")
    ∧ parse_m3u (str "#EXTINF:-1\nhttp://x")
        = [{ tvg_id := none, tvg_name := none, tvg_logo := none,
             group_title := none, name := none, url := some (str "http://x") }] := by
  refine ⟨by decide, by decide, by decide, by decide⟩

/-- Claim C4, amended: The extracted display name is everything after the
*first* comma that has a non-empty tail (so it may contain further commas),
trimmed; a line with no comma produces no name; but a comma-less `#EXTINF`
line followed by a usable URL line still yields a record (with no name). -/
theorem c4_name_extraction_amended :
    (∀ pre rest, ',' ∉ pre → rest ≠ []
      → (extractInfo (pre ++ ',' :: rest)).name = some (strip rest))
    ∧ (∀ line, ',' ∉ line → (extractInfo line).name = none)
    ∧ (∀ l next rest, (str "#EXTINF:").isPrefixOf (strip l) = true
        → strip next ≠ [] → (str "#").isPrefixOf (strip next) = false
        → parseLines (l :: next :: rest)
            = { extractInfo (strip l) with url := some (strip next) } :: parseLines rest) := by
  refine ⟨fun pre rest hp hr => ?_, fun line h => ?_, parseLines_extinf_step⟩
  · simp [extractInfo_name, nameAfterComma_append pre rest hp hr]
  · simp [extractInfo_name, nameAfterComma_none line h]

/-- Witness for C4 (amended) at concrete inputs. -/
theorem c4_name_extraction_amended_witness :
    (',' ∉ str "#EXTINF:-1" ∧ str " A,B " ≠ []
      ∧ (extractInfo (str "#EXTINF:-1" ++ ',' :: str " A,B ")).name = some (str "A,B"))
    ∧ (',' ∉ str "#EXTINF:-1 x" ∧ (extractInfo (str "#EXTINF:-1 x")).name = none) :=
  ⟨⟨by decide, by decide,
    c4_name_extraction_amended.1 (str "#EXTINF:-1") (str " A,B ") (by decide) (by decide)⟩,
   ⟨by decide, c4_name_extraction_amended.2.1 (str "#EXTINF:-1 x") (by decide)⟩⟩

/-! ## Claim C10 -/

/-- Claim C10: A comma-less `#EXTINF` line followed by a usable URL line still
emits a record lacking `name` (and lacking `group_title` when the group-title
attribute is absent or strips to empty); both serializers then render that
record with the literal name "Unknown" and category "Entertainment". -/
theorem c10_nameless_record :
    (∀ l next rest, (str "#EXTINF:").isPrefixOf (strip l) = true
      → ',' ∉ strip l
      → strip next ≠ [] → (str "#").isPrefixOf (strip next) = false
      → parseLines (l :: next :: rest)
          = { extractInfo (strip l) with url := some (strip next) } :: parseLines rest
        ∧ (extractInfo (strip l)).name = none
        ∧ ((match attrValue (str "group-title") (strip l) with
            | some v => strip v = []
            | none => True)
          → (extractInfo (strip l)).group_title = none))
    ∧ (∀ ch : Channel, ch.name = none → ch.group_title = none
        → (str ",Unknown").isSuffixOf (renderExtinf ch) = true
          ∧ (jchannelOf (effCat ch) ch).name = str "Unknown"
          ∧ (jchannelOf (effCat ch) ch).group = str "Entertainment") := by
  constructor
  · intro l next rest hext hnc hne hnp
    have hname : (extractInfo (strip l)).name = none := by
      simp [extractInfo_name, nameAfterComma_none (strip l) hnc]
    refine ⟨parseLines_extinf_step l next rest hext hne hnp, hname, fun hgt => ?_⟩
    rw [extractInfo_group_title, nameAfterComma_none (strip l) hnc]
    show rawGroupTitle (strip l) = none
    cases hv : attrValue (str "group-title") (strip l) with
    | none => simp [rawGroupTitle, hv]
    | some v =>
      rw [hv] at hgt
      simp [rawGroupTitle, hv, hgt]
  · intro ch hname hgt
    refine ⟨?_, by simp [jchannelOf, hname], by simp [jchannelOf, effCat, hgt]⟩
    have hshape : renderExtinf ch
        = (str "#EXTINF:-1"
            ++ (match ch.tvg_id with
                | some v => str " tvg-id=\x22" ++ v ++ [Char.ofNat 34]
                | none => [])
            ++ (match ch.tvg_name with
                | some v => str " tvg-name=\x22" ++ v ++ [Char.ofNat 34]
                | none => [])
            ++ (match ch.tvg_logo with
                | some v => str " tvg-logo=\x22" ++ v ++ [Char.ofNat 34]
                | none => []))
          ++ str ",Unknown" := by
      simp [renderExtinf, hname, hgt, List.append_assoc]
      decide
    rw [hshape, List.isSuffixOf, List.reverse_append]
    exact isPrefixOf_extend _ _ _ (by decide)

/-- Witness for C10 at a concrete comma-less entry. -/
theorem c10_nameless_record_witness :
    (parseLines [str "#EXTINF:-1", str "http://x"]
        = [{ extractInfo (strip (str "#EXTINF:-1")) with url := some (str "http://x") }]
      ∧ (extractInfo (strip (str "#EXTINF:-1"))).name = none)
    ∧ (str ",Unknown").isSuffixOf
        (renderExtinf { tvg_id := some (str "t"), tvg_name := none, tvg_logo := none,
                        group_title := none, name := none, url := some (str "u") }) = true := by
  refine ⟨?_, ?_⟩
  · have h := (c10_nameless_record.1 (str "#EXTINF:-1") (str "http://x") []
      (by decide) (by decide) (by decide) (by decide))
    exact ⟨h.1, h.2.1⟩
  · exact (c10_nameless_record.2
      { tvg_id := some (str "t"), tvg_name := none, tvg_logo := none,
        group_title := none, name := none, url := some (str "u") } rfl rfl).1

/-! ## Claim C5 -/

/-- Claim C5: A `group-title` attribute whose quoted value strips to empty is
treated exactly like an absent attribute: in both cases the record's category
is the classifier's verdict on the name (when a name exists, else absent);
and the concrete example from the spec parses to one Entertainment record. -/
theorem c5_empty_group_title :
    (∀ line v, attrValue (str "group-title") line = some v → strip v = []
      → (extractInfo line).group_title = (extractInfo line).name.map detect_category)
    ∧ (∀ line, attrValue (str "group-title") line = none
      → (extractInfo line).group_title = (extractInfo line).name.map detect_category)
    ∧ parse_m3u (str "#EXTINF:-1 tvg-id=\x22s1\x22 group-title=\x22\x22,Sony SET HD\nhttp://x/1")
        = [{ tvg_id := some (str "s1"), tvg_name := none, tvg_logo := none,
             group_title := some (str "Entertainment"), name := some (str "Sony SET HD"),
             url := some (str "http://x/1") }] := by
  refine ⟨fun line v hv hstrip => ?_, fun line hv => ?_, by decide⟩
  · have hrg : rawGroupTitle line = none := by simp [rawGroupTitle, hv, hstrip]
    rw [extractInfo_group_title, extractInfo_name, hrg]
    cases hnm : nameAfterComma line <;> simp
  · have hrg : rawGroupTitle line = none := by simp [rawGroupTitle, hv]
    rw [extractInfo_group_title, extractInfo_name, hrg]
    cases hnm : nameAfterComma line <;> simp

/-- Witness for C5 at the spec's example line. -/
theorem c5_empty_group_title_witness :
    attrValue (str "group-title")
        (str "#EXTINF:-1 tvg-id=\x22s1\x22 group-title=\x22\x22,Sony SET HD") = some []
    ∧ (extractInfo (str "#EXTINF:-1 tvg-id=\x22s1\x22 group-title=\x22\x22,Sony SET HD")).group_title
        = (extractInfo (str "#EXTINF:-1 tvg-id=\x22s1\x22 group-title=\x22\x22,Sony SET HD")).name.map
            detect_category :=
  ⟨by decide,
   c5_empty_group_title.1 (str "#EXTINF:-1 tvg-id=\x22s1\x22 group-title=\x22\x22,Sony SET HD")
     [] (by decide) (by decide)⟩

/-! ## Claim C1 -/

lemma detect_category_mem_labels (name : Str) : detect_category name ∈ classifierLabels := by
  simp only [detect_category, classifierLabels]
  repeat' split
  all_goals simp

lemma detect_category_ne_nil (name : Str) : detect_category name ≠ [] := by
  have h := detect_category_mem_labels name
  simp only [classifierLabels, List.mem_cons, List.not_mem_nil, or_false] at h
  rcases h with h | h | h | h | h | h | h <;> rw [h] <;> decide

lemma rawGroupTitle_some_ne_nil (line : Str) (g : Str)
    (h : rawGroupTitle line = some g) : g ≠ [] := by
  unfold rawGroupTitle at h
  split at h
  · split at h
    · rename_i hsv
      rw [← Option.some_inj.1 h]
      exact hsv
    · simp at h
  · simp at h

lemma extractInfo_name_ne_nil (line : Str)
    (hlast : ∀ a, line.getLast? = some a → isSpaceChar a = false) :
    ∀ n, (extractInfo line).name = some n → n ≠ [] := by
  intro n hn
  rw [extractInfo_name] at hn
  cases hna : nameAfterComma line with
  | none => rw [hna] at hn; simp at hn
  | some t =>
    rw [hna] at hn
    have hn2 : strip t = n := by simpa using hn
    obtain ⟨pre, hdecomp, htne⟩ := nameAfterComma_some_decomp line t hna
    obtain ⟨b, hb⟩ := Option.isSome_iff_exists.1 (List.getLast?_isSome.2 htne)
    have hlineb : line.getLast? = some b := by
      rw [hdecomp, List.getLast?_append]
      have h2 : (',' :: t).getLast? = some b := by
        have h3 : ([','] ++ t).getLast? = some b := by
          rw [List.getLast?_append, hb]; rfl
        simpa using h3
      rw [h2]; rfl
    have hbns : isSpaceChar b = false := hlast b hlineb
    rw [← hn2]
    exact strip_ne_nil t b hb hbns

lemma extractInfo_group_title_of_name (line : Str) :
    ∀ n, (extractInfo line).name = some n
      → ∃ c, (extractInfo line).group_title = some c ∧ c ≠ [] := by
  intro n hn
  rw [extractInfo_name] at hn
  rw [extractInfo_group_title]
  cases hna : nameAfterComma line with
  | none => rw [hna] at hn; simp at hn
  | some t =>
    show ∃ c, (match rawGroupTitle line with
        | some g => some g
        | none => some (detect_category (strip t))) = some c ∧ c ≠ []
    cases hrg : rawGroupTitle line with
    | none => exact ⟨detect_category (strip t), rfl, detect_category_ne_nil (strip t)⟩
    | some g => exact ⟨g, rfl, rawGroupTitle_some_ne_nil line g hrg⟩

lemma parse_records_invariant (lines : List Str) :
    ∀ ch ∈ parseLines lines,
      (∃ u, ch.url = some u ∧ u ≠ [] ∧ (str "#").isPrefixOf u = false)
      ∧ (∀ n, ch.name = some n → n ≠ [])
      ∧ (∀ n, ch.name = some n → ∃ c, ch.group_title = some c ∧ c ≠ []) := by
  induction lines using parseLines.induct with
  | case1 => intro ch hch; simp [parseLines] at hch
  | case2 l => intro ch hch; simp [parseLines] at hch
  | case3 l next rest line hext url hurl ih =>
    intro ch hch
    rw [parseLines_extinf_step l next rest hext hurl.1 (Bool.eq_false_iff.2 hurl.2)] at hch
    rcases List.mem_cons.1 hch with hcheq | hchmem
    · subst hcheq
      refine ⟨⟨strip next, rfl, hurl.1, Bool.eq_false_iff.2 hurl.2⟩, ?_, ?_⟩
      · intro n hn
        exact extractInfo_name_ne_nil (strip l) (strip_getLast_not_space l) n hn
      · intro n hn
        exact extractInfo_group_title_of_name (strip l) n hn
    · exact ih ch hchmem
  | case4 l next rest line hext url hbad ih =>
    intro ch hch
    have hbad2 : strip next = [] ∨ (str "#").isPrefixOf (strip next) = true := by
      by_cases h1 : strip next = []
      · exact Or.inl h1
      · refine Or.inr ?_
        by_contra h2
        exact hbad ⟨h1, fun h3 => h2 h3⟩
    rw [parseLines_extinf_bad l next rest hext hbad2] at hch
    exact ih ch hch
  | case5 l next rest line hnext ih =>
    intro ch hch
    rw [parseLines_skip l (next :: rest) (Bool.eq_false_iff.2 hnext)] at hch
    exact ih ch hch

/-- Counterexample to C1: a comma-less `#EXTINF` line followed by a URL line
emits a record with no name and no category at all. -/
theorem c1_counterexample :
    ¬ (∀ ch ∈ parse_m3u (str "#EXTINF:-1\nhttp://y"),
        ch.name ≠ none ∧ ch.group_title ≠ none) := by
  decide

/-- Claim C1, amended: Every record emitted by the parser has a non-empty url
that does not start with `#`; whenever a record carries a name, the name is
non-empty and the category is populated and non-empty (from a non-empty
group-title attribute or from the classifier); but records parsed from
comma-less `#EXTINF` lines carry no name and may carry no category. -/
theorem c1_parser_record_fields (content : Str) :
    ∀ ch ∈ parse_m3u content,
      (∃ u, ch.url = some u ∧ u ≠ [] ∧ (str "#").isPrefixOf u = false)
      ∧ (∀ n, ch.name = some n → n ≠ [])
      ∧ (∀ n, ch.name = some n → ∃ c, ch.group_title = some c ∧ c ≠ []) :=
  parse_records_invariant (splitNl (strip content))

/-- Witness for C1 (amended) at a concrete input. -/
theorem c1_parser_record_fields_witness :
    { tvg_id := (none : Option Str), tvg_name := none, tvg_logo := none,
      group_title := some (str "Entertainment"), name := some (str "ABC"),
      url := some (str "http://x") } ∈ parse_m3u (str "#EXTINF:-1,ABC\nhttp://x")
    ∧ ((∃ u, (some (str "http://x") : Option Str) = some u ∧ u ≠ []
          ∧ (str "#").isPrefixOf u = false)
        ∧ (∀ n, (some (str "ABC") : Option Str) = some n → n ≠ [])
        ∧ (∀ n, (some (str "ABC") : Option Str) = some n
            → ∃ c, (some (str "Entertainment") : Option Str) = some c ∧ c ≠ [])) :=
  ⟨by decide,
   c1_parser_record_fields (str "#EXTINF:-1,ABC\nhttp://x")
     { tvg_id := none, tvg_name := none, tvg_logo := none,
       group_title := some (str "Entertainment"), name := some (str "ABC"),
       url := some (str "http://x") } (by decide)⟩

/-! ## Claim C2: `findTail` machinery -/

lemma isPrefixOf_exists (p : Str) : ∀ s : Str, p.isPrefixOf s = true
    → s = p ++ s.drop p.length := by
  induction p with
  | nil => intro s _; simp
  | cons a ps ih =>
    intro s h
    cases s with
    | nil => simp [List.isPrefixOf] at h
    | cons b ss =>
      simp only [List.isPrefixOf, Bool.and_eq_true, beq_iff_eq] at h
      obtain ⟨rfl, h2⟩ := h
      simpa using ih ss h2

lemma isPrefixOf_length_le (p s : Str) (h : p.isPrefixOf s = true) : p.length ≤ s.length := by
  have := isPrefixOf_exists p s h
  rw [this, List.length_append]
  omega

lemma isPrefixOf_of_append (p : Str) : ∀ s t : Str, p.isPrefixOf (s ++ t) = true
    → p.length ≤ s.length → p.isPrefixOf s = true := by
  induction p with
  | nil => intro s t _ _; simp [List.isPrefixOf]
  | cons a ps ih =>
    intro s t h hlen
    cases s with
    | nil => simp at hlen
    | cons b ss =>
      simp only [List.cons_append, List.isPrefixOf, Bool.and_eq_true] at h ⊢
      exact ⟨h.1, ih ss t h.2 (by simpa using hlen)⟩

lemma findTail_some_decomp (pat : Str) : ∀ s r : Str, findTail pat s = some r
    → ∃ x, s = x ++ pat ++ r := by
  intro s
  induction s with
  | nil =>
    intro r h
    simp only [findTail] at h
    by_cases hp : pat.isEmpty
    · rw [if_pos hp] at h
      obtain rfl := Option.some_inj.1 h
      exact ⟨[], by simp [List.isEmpty_iff.1 hp]⟩
    · rw [if_neg hp] at h
      simp at h
  | cons a t ih =>
    intro r h
    simp only [findTail] at h
    by_cases hp : pat.isPrefixOf (a :: t) = true
    · rw [if_pos hp] at h
      obtain rfl := Option.some_inj.1 h
      exact ⟨[], by simpa using isPrefixOf_exists pat (a :: t) hp⟩
    · rw [if_neg hp] at h
      obtain ⟨x, hx⟩ := ih r h
      exact ⟨a :: x, by simp [hx]⟩

lemma findTail_extend (pat : Str) : ∀ P r tail : Str, findTail pat P = some r
    → findTail pat (P ++ tail) = some (r ++ tail) := by
  intro P
  induction P with
  | nil =>
    intro r tail h
    simp only [findTail] at h
    by_cases hp : pat.isEmpty
    · rw [if_pos hp] at h
      obtain rfl := Option.some_inj.1 h
      have hpe : pat = [] := List.isEmpty_iff.1 hp
      subst hpe
      cases tail with
      | nil => rfl
      | cons c cs => simp [findTail, List.isPrefixOf]
    · rw [if_neg hp] at h
      simp at h
  | cons a P ih =>
    intro r tail h
    simp only [findTail] at h
    by_cases hp : pat.isPrefixOf (a :: P) = true
    · rw [if_pos hp] at h
      obtain rfl := Option.some_inj.1 h
      have hext : pat.isPrefixOf ((a :: P) ++ tail) = true := isPrefixOf_extend pat _ tail hp
      have hlen : pat.length ≤ (a :: P).length := isPrefixOf_length_le pat _ hp
      simp only [List.cons_append, findTail]
      rw [if_pos (by simpa using hext)]
      congr 1
      show ((a :: P) ++ tail).drop pat.length = (a :: P).drop pat.length ++ tail
      exact List.drop_append_of_le_length hlen
    · rw [if_neg hp] at h
      have hnp2 : ¬ pat.isPrefixOf ((a :: P) ++ tail) = true := by
        intro hcon
        obtain ⟨x, hx⟩ := findTail_some_decomp pat P r h
        have hlen : pat.length ≤ (a :: P).length := by
          have : P.length = x.length + pat.length + r.length := by
            rw [hx]; simp [List.length_append]; omega
          simp only [List.length_cons]
          omega
        exact hp (isPrefixOf_of_append pat _ tail hcon hlen)
      simp only [List.cons_append, findTail]
      rw [if_neg (by simpa using hnp2)]
      exact ih r tail h

/-! ## Claim C2: re-extraction from a rendered line -/

lemma option_eq_some_getD (o : Option Str) (h : o ≠ none) : o = some (o.getD []) := by
  cases o with
  | none => exact absurd rfl h
  | some a => rfl

lemma renderExtinf_eq (ch : Channel) :
    renderExtinf ch
      = attrsPart ch ++ optAttr (str " group-title") ch.group_title
          ++ ([','] ++ ch.name.getD (str "Unknown")) := by
  have h1 : str " tvg-id=\x22" = str " tvg-id" ++ str "=\x22" := by decide
  have h2 : str " tvg-name=\x22" = str " tvg-name" ++ str "=\x22" := by decide
  have h3 : str " tvg-logo=\x22" = str " tvg-logo" ++ str "=\x22" := by decide
  have h4 : str " group-title=\x22" = str " group-title" ++ str "=\x22" := by decide
  simp only [renderExtinf, attrsPart, optAttr]
  cases ch.tvg_id <;> cases ch.tvg_name <;> cases ch.tvg_logo <;> cases ch.group_title <;>
    simp [h1, h2, h3, h4, List.append_assoc]

lemma not_mem_optAttr (c : Char) (label : Str) (v : Option Str)
    (hl : c ∉ label) (hv : c ∉ v.getD []) (heq : c ∉ str "=\x22")
    (hc2 : c ≠ Char.ofNat 34) :
    c ∉ optAttr label v := by
  cases v with
  | none => simp [optAttr]
  | some v =>
    intro h
    simp only [optAttr, List.mem_append, List.mem_singleton] at h
    rcases h with ((h | h) | h) | h
    · exact hl h
    · exact heq h
    · exact hv h
    · exact hc2 h

lemma not_mem_attrsPart (c : Char) (ch : Channel)
    (h0 : c ∉ str "#EXTINF:-1") (h1 : c ∉ str " tvg-id") (h2 : c ∉ str " tvg-name")
    (h3 : c ∉ str " tvg-logo")
    (hv1 : c ∉ ch.tvg_id.getD []) (hv2 : c ∉ ch.tvg_name.getD [])
    (hv3 : c ∉ ch.tvg_logo.getD [])
    (heq : c ∉ str "=\x22") (hc2 : c ≠ Char.ofNat 34) : c ∉ attrsPart ch := by
  intro h
  simp only [attrsPart, List.mem_append] at h
  rcases h with ((h | h) | h) | h
  · exact h0 h
  · exact not_mem_optAttr c _ _ h1 hv1 heq hc2 h
  · exact not_mem_optAttr c _ _ h2 hv2 heq hc2 h
  · exact not_mem_optAttr c _ _ h3 hv3 heq hc2 h

lemma comma_not_mem_pre (ch : Channel) (hG : Good ch) :
    ',' ∉ attrsPart ch ++ optAttr (str " group-title") ch.group_title := by
  intro h
  rcases List.mem_append.1 h with h | h
  · exact not_mem_attrsPart ',' ch (by decide) (by decide) (by decide) (by decide)
      hG.idVal.1 hG.nameVal.1 hG.logoVal.1 (by decide) (by decide) h
  · exact not_mem_optAttr ',' _ _ (by decide) hG.gtComma (by decide) (by decide) h

lemma nameAfterComma_render (ch : Channel) (hG : Good ch) :
    nameAfterComma (renderExtinf ch) = some (ch.name.getD []) := by
  have hshape : renderExtinf ch
      = (attrsPart ch ++ optAttr (str " group-title") ch.group_title)
          ++ (',' :: ch.name.getD []) := by
    rw [renderExtinf_eq, option_eq_some_getD ch.name hG.nameS]
    simp [List.append_assoc]
  rw [hshape]
  exact nameAfterComma_append _ _ (comma_not_mem_pre ch hG) hG.nameNe

lemma takeWhile_until_quote (c : Str) (hq : Char.ofNat 34 ∉ c) (rest : Str) :
    (c ++ Char.ofNat 34 :: rest).takeWhile (fun x => x ≠ '\x22') = c := by
  induction c with
  | nil => simp [List.takeWhile_cons]
  | cons a t ih =>
    have ha : a ≠ Char.ofNat 34 := fun h => hq (h ▸ List.mem_cons_self a t)
    have ht : Char.ofNat 34 ∉ t := fun h => hq (List.mem_cons_of_mem a h)
    simp only [List.cons_append, List.takeWhile_cons]
    rw [if_pos (by simpa using ha)]
    rw [ih ht]

lemma attrValue_render (ch : Channel) (hG : Good ch) :
    attrValue (str "group-title") (renderExtinf ch) = some (ch.group_title.getD []) := by
  have hpat : str "group-title" ++ str "=\x22" = str "group-title=\x22" := by decide
  have hshape : renderExtinf ch
      = (attrsPart ch ++ str " group-title=\x22")
          ++ (ch.group_title.getD [] ++ Char.ofNat 34 :: ',' :: ch.name.getD []) := by
    rw [renderExtinf_eq, option_eq_some_getD ch.name hG.nameS,
      option_eq_some_getD ch.group_title hG.gtS]
    have h4 : str " group-title=\x22" = str " group-title" ++ str "=\x22" := by decide
    simp [optAttr, h4, List.append_assoc]
  have hft : findTail (str "group-title=\x22") (renderExtinf ch)
      = some (ch.group_title.getD [] ++ Char.ofNat 34 :: ',' :: ch.name.getD []) := by
    rw [hshape]
    have := findTail_extend (str "group-title=\x22") _ []
      (ch.group_title.getD [] ++ Char.ofNat 34 :: ',' :: ch.name.getD []) hG.gtMarker
    simpa using this
  unfold attrValue
  rw [hpat, hft]
  have hany : (ch.group_title.getD [] ++ Char.ofNat 34 :: ',' :: ch.name.getD []).any
      (fun c => c = '\x22') = true := by
    refine List.any_eq_true.2 ⟨Char.ofNat 34, ?_, by decide⟩
    exact List.mem_append_right _ (List.mem_cons_self _ _)
  dsimp only
  rw [if_pos hany]
  rw [takeWhile_until_quote _ hG.gtQuote]

lemma extractInfo_render (ch : Channel) (hG : Good ch) :
    (extractInfo (renderExtinf ch)).name = ch.name
    ∧ (extractInfo (renderExtinf ch)).group_title = ch.group_title := by
  have hname : (extractInfo (renderExtinf ch)).name = ch.name := by
    rw [extractInfo_name, nameAfterComma_render ch hG]
    dsimp only [Option.map]
    rw [hG.nameStrip]
    exact (option_eq_some_getD ch.name hG.nameS).symm
  refine ⟨hname, ?_⟩
  have hrg : rawGroupTitle (renderExtinf ch) = ch.group_title := by
    unfold rawGroupTitle
    rw [attrValue_render ch hG]
    dsimp only
    rw [hG.gtStrip, if_pos hG.gtNe]
    exact (option_eq_some_getD ch.group_title hG.gtS).symm
  rw [extractInfo_group_title, nameAfterComma_render ch hG]
  dsimp only [Option.map]
  rw [hrg, option_eq_some_getD ch.group_title hG.gtS]

/-! ## Claim C2: the parser walk over the serialized lines -/

lemma strip_invariant_getLast (s : Str) (hs : strip s = s) :
    ∀ a, s.getLast? = some a → isSpaceChar a = false := fun a ha =>
  strip_getLast_not_space s a (by rw [hs]; exact ha)

lemma head?_renderExtinf (ch : Channel) : (renderExtinf ch).head? = some '#' := rfl

lemma getLast?_renderExtinf (ch : Channel) (hG : Good ch) :
    (renderExtinf ch).getLast? = (ch.name.getD []).getLast? := by
  rw [renderExtinf_eq, option_eq_some_getD ch.name hG.nameS]
  obtain ⟨b, hb⟩ := Option.isSome_iff_exists.1 (List.getLast?_isSome.2 hG.nameNe)
  have h2 : (',' :: ch.name.getD []).getLast? = some b := by
    rw [show (',' :: ch.name.getD []) = [','] ++ ch.name.getD [] from rfl,
      List.getLast?_append, hb]
    rfl
  simp [List.getLast?_append, h2, hb]

lemma strip_renderExtinf (ch : Channel) (hG : Good ch) :
    strip (renderExtinf ch) = renderExtinf ch := by
  apply strip_eq_self
  · intro a ha
    rw [head?_renderExtinf] at ha
    obtain rfl := Option.some_inj.1 ha
    decide
  · intro a ha
    rw [getLast?_renderExtinf ch hG] at ha
    exact strip_invariant_getLast _ hG.nameStrip a ha

lemma extinf_prefix_render (ch : Channel) :
    (str "#EXTINF:").isPrefixOf (renderExtinf ch) = true := by
  have h : renderExtinf ch
      = str "#EXTINF:-1"
          ++ (optAttr (str " tvg-id") ch.tvg_id ++ (optAttr (str " tvg-name") ch.tvg_name
            ++ (optAttr (str " tvg-logo") ch.tvg_logo
              ++ (optAttr (str " group-title") ch.group_title
                ++ ([','] ++ ch.name.getD (str "Unknown")))))) := by
    rw [renderExtinf_eq]
    simp [attrsPart, List.append_assoc]
  rw [h]
  exact isPrefixOf_extend _ _ _ (by decide)

lemma parseLines_channel_block (ch : Channel) (hG : Good ch) (rest : List Str) :
    parseLines (channelLines ch ++ rest)
      = { extractInfo (renderExtinf ch) with url := ch.url } :: parseLines rest := by
  have h1 := parseLines_extinf_step (renderExtinf ch) (ch.url.getD []) ([] :: rest)
      (by rw [strip_renderExtinf ch hG]; exact extinf_prefix_render ch)
      (by rw [hG.urlStrip]; exact hG.urlNe)
      (by rw [hG.urlStrip]; exact hG.urlHash)
  show parseLines (renderExtinf ch :: ch.url.getD [] :: [] :: rest) = _
  rw [h1, strip_renderExtinf ch hG, hG.urlStrip, ← option_eq_some_getD ch.url hG.urlS,
    parseLines_skip [] rest (by decide)]

lemma parseLines_blocks (bs : List Channel) (rest : List Str)
    (hGs : ∀ ch ∈ bs, Good ch) :
    parseLines (bs.flatMap channelLines ++ rest)
      = bs.map (fun ch => { extractInfo (renderExtinf ch) with url := ch.url })
          ++ parseLines rest := by
  induction bs with
  | nil => simp
  | cons ch bs ih =>
    have hch : Good ch := hGs ch (List.mem_cons_self ch bs)
    have hbs : ∀ x ∈ bs, Good x := fun x hx => hGs x (List.mem_cons_of_mem ch hx)
    simp only [List.flatMap_cons, List.map_cons, List.append_assoc]
    rw [parseLines_channel_block ch hch, ih hbs]
    simp

lemma head?_sep (c : Str) :
    (str "# ========== " ++ c ++ str " ==========").head? = some '#' := rfl

lemma strip_sep (c : Str) :
    strip (str "# ========== " ++ c ++ str " ==========")
      = str "# ========== " ++ c ++ str " ==========" := by
  apply strip_eq_self
  · intro a ha
    rw [head?_sep] at ha
    obtain rfl := Option.some_inj.1 ha
    decide
  · intro a ha
    have hlit : (str " ==========").getLast? = some '=' := by decide
    rw [List.getLast?_append, hlit] at ha
    obtain rfl := Option.some_inj.1 ha
    decide

lemma sep_not_extinf (c : Str) :
    (str "#EXTINF:").isPrefixOf (str "# ========== " ++ c ++ str " ==========") = false := by
  show (('#' :: 'E' :: 'X' :: 'T' :: 'I' :: 'N' :: 'F' :: ':' :: []) : Str).isPrefixOf
    ('#' :: ' ' :: ((str "========== " ++ c) ++ str " ==========")) = false
  simp [List.isPrefixOf]

lemma parseLines_section (chs : List Channel) (c : Str) (rest : List Str)
    (hGs : ∀ ch ∈ bucket chs c, Good ch) :
    parseLines (sectionLines chs c ++ rest)
      = (bucket chs c).map (fun ch => { extractInfo (renderExtinf ch) with url := ch.url })
          ++ parseLines rest := by
  show parseLines ((str "# ========== " ++ c ++ str " ==========")
      :: (((bucket chs c).flatMap channelLines ++ [[]]) ++ rest)) = _
  rw [parseLines_skip _ _ (by rw [strip_sep]; exact sep_not_extinf c)]
  rw [List.append_assoc]
  rw [parseLines_blocks _ _ hGs]
  rw [show ([[]] ++ rest : List Str) = [] :: rest from rfl]
  rw [parseLines_skip [] rest (by decide)]

lemma parseLines_sections (chs : List Channel) (cats : List Str) (rest : List Str)
    (hGs : ∀ ch ∈ chs, Good ch) :
    parseLines (cats.flatMap (sectionLines chs) ++ rest)
      = cats.flatMap
          (fun c => (bucket chs c).map
            (fun ch => { extractInfo (renderExtinf ch) with url := ch.url }))
          ++ parseLines rest := by
  induction cats with
  | nil => simp
  | cons c cats ih =>
    have hb : ∀ ch ∈ bucket chs c, Good ch :=
      fun ch hch => hGs ch (List.mem_of_mem_filter hch)
    simp only [List.flatMap_cons, List.append_assoc]
    rw [parseLines_section chs c _ hb, ih]

lemma parseLines_header (X : List Str) : parseLines (headerLines ++ X) = parseLines X := by
  show parseLines (str "#EXTM3U x-tvg-url=\x22https://www.tsepg.cf/epg.xml.gz\x22"
      :: str "# ==============================="
      :: str "#  StreamFlex™ Official Playlist"
      :: str "#  AU • Secure • Private"
      :: str "#  Join: https://t.me/streamflex19"
      :: str "# ==============================="
      :: ([] : Str)
      :: X) = parseLines X
  exact (parseLines_skip _ _ (by decide)).trans
    ((parseLines_skip _ _ (by decide)).trans
      ((parseLines_skip _ _ (by decide)).trans
        ((parseLines_skip _ _ (by decide)).trans
          ((parseLines_skip _ _ (by decide)).trans
            ((parseLines_skip _ _ (by decide)).trans
              (parseLines_skip _ _ (by decide)))))))

lemma parseLines_footer : parseLines footerLines = [] := by decide

/-! ## Claim C2: from the serialized text back to its lines -/

lemma iJoin_cons_cons (l x : Str) (xs : List Str) :
    iJoin (l :: x :: xs) = l ++ '\n' :: iJoin (x :: xs) := rfl

lemma joinNl_eq_iJoin : ∀ ls : List Str, ls ≠ [] → joinNl ls = iJoin ls ++ ['\n'] := by
  intro ls
  induction ls with
  | nil => intro h; exact absurd rfl h
  | cons l ls ih =>
    intro _
    cases ls with
    | nil => simp [joinNl, iJoin]
    | cons x xs =>
      rw [joinNl_cons, ih (by simp), iJoin_cons_cons]
      simp

lemma splitNl_no_newline (l : Str) (h : '\n' ∉ l) : splitNl l = [l] := by
  induction l with
  | nil => rfl
  | cons c t ih =>
    have hc : c ≠ '\n' := fun hh => h (hh ▸ List.mem_cons_self c t)
    have ht : '\n' ∉ t := fun hh => h (List.mem_cons_of_mem c hh)
    simp [splitNl, hc, ih ht]

lemma splitNl_cons_line (l : Str) (rest : Str) (h : '\n' ∉ l) :
    splitNl (l ++ '\n' :: rest) = l :: splitNl rest := by
  induction l with
  | nil => simp [splitNl]
  | cons c t ih =>
    have hc : c ≠ '\n' := fun hh => h (hh ▸ List.mem_cons_self c t)
    have ht : '\n' ∉ t := fun hh => h (List.mem_cons_of_mem c hh)
    simp [splitNl, hc, ih ht]

lemma splitNl_iJoin : ∀ ls : List Str, ls ≠ [] → (∀ l ∈ ls, '\n' ∉ l)
    → splitNl (iJoin ls) = ls := by
  intro ls
  induction ls with
  | nil => intro h; exact absurd rfl h
  | cons l ls ih =>
    intro _ hnl
    cases ls with
    | nil => exact splitNl_no_newline l (hnl l (List.mem_cons_self l []))
    | cons x xs =>
      rw [iJoin_cons_cons, splitNl_cons_line l _ (hnl l (List.mem_cons_self l _)),
        ih (by simp) (fun y hy => hnl y (List.mem_cons_of_mem l hy))]

lemma strip_append_newline (X : Str)
    (hh : ∀ a, X.head? = some a → isSpaceChar a = false)
    (hl : ∀ a, X.getLast? = some a → isSpaceChar a = false) :
    strip (X ++ ['\n']) = X := by
  cases X with
  | nil => decide
  | cons x X2 =>
    have hx : isSpaceChar x = false := hh x rfl
    unfold strip
    have h1 : ((x :: X2) ++ ['\n']).dropWhile isSpaceChar = (x :: X2) ++ ['\n'] := by
      simp [List.dropWhile_cons, hx]
    rw [h1]
    have h2 : ((x :: X2) ++ ['\n']).reverse = '\n' :: (x :: X2).reverse := by simp
    rw [h2]
    have h3 : ('\n' :: (x :: X2).reverse).dropWhile isSpaceChar
        = (x :: X2).reverse.dropWhile isSpaceChar :=
      List.dropWhile_cons_of_pos (by decide)
    rw [h3]
    have h4 : (x :: X2).reverse.dropWhile isSpaceChar = (x :: X2).reverse := by
      obtain ⟨b, hb⟩ := Option.isSome_iff_exists.1
        (List.getLast?_isSome.2 (by simp : (x :: X2) ≠ []))
      have hbs := hl b hb
      cases hrev : (x :: X2).reverse with
      | nil => simp at hrev
      | cons y ys =>
        have hy : y = b := by
          have h5 := List.head?_reverse (x :: X2)
          rw [hrev, hb] at h5
          exact Option.some_inj.1 h5
        subst hy
        simp [List.dropWhile_cons, hbs]
    rw [h4, List.reverse_reverse]

lemma iJoin_head? (l : Str) (ls : List Str) (hl : l ≠ []) :
    (iJoin (l :: ls)).head? = l.head? := by
  cases ls with
  | nil => rfl
  | cons x xs =>
    rw [iJoin_cons_cons]
    cases l with
    | nil => exact absurd rfl hl
    | cons a t => rfl

lemma iJoin_getLast? : ∀ (ls : List Str) (l : Str), ls.getLast? = some l → l ≠ []
    → (iJoin ls).getLast? = l.getLast? := by
  intro ls
  induction ls with
  | nil => intro l h _; simp at h
  | cons x xs ih =>
    intro l h hl
    cases xs with
    | nil =>
      have hx : x = l := by simpa using h
      subst hx
      rfl
    | cons y ys =>
      have h2 : (y :: ys).getLast? = some l := by
        rw [← h]
        exact List.getLast?_cons_cons.symm
      obtain ⟨b, hb⟩ := Option.isSome_iff_exists.1 (List.getLast?_isSome.2 hl)
      have h3 := ih l h2 hl
      rw [iJoin_cons_cons, List.getLast?_append]
      have h4 : ('\n' :: iJoin (y :: ys)).getLast? = l.getLast? := by
        rw [show ('\n' :: iJoin (y :: ys)) = ['\n'] ++ iJoin (y :: ys) from rfl,
          List.getLast?_append, h3, hb]
        rfl
      rw [h4, hb]
      rfl

/-! ## Claim C2: newline-freedom of the serialized lines -/

lemma effCat_eq_getD (ch : Channel) (h : ch.group_title ≠ none) :
    effCat ch = ch.group_title.getD [] := by
  cases hgt : ch.group_title with
  | none => exact absurd hgt h
  | some g => simp [effCat, hgt]

lemma mem_presentCats (chs : List Channel) (c : Str) :
    c ∈ presentCats chs ↔ ∃ ch ∈ chs, effCat ch = c := by
  simp [presentCats, List.mem_dedup, List.mem_map]

lemma newline_not_mem_renderExtinf (ch : Channel) (hG : Good ch) :
    '\n' ∉ renderExtinf ch := by
  rw [renderExtinf_eq, option_eq_some_getD ch.name hG.nameS]
  intro h
  simp only [Option.getD_some, List.mem_append] at h
  rcases h with (h | h) | (h | h)
  · exact not_mem_attrsPart '\n' ch (by decide) (by decide) (by decide) (by decide)
      hG.idVal.2 hG.nameVal.2 hG.logoVal.2 (by decide) (by decide) h
  · exact not_mem_optAttr '\n' _ _ (by decide) hG.gtNl (by decide) (by decide) h
  · exact absurd (List.mem_singleton.1 h) (by decide)
  · exact hG.nameNl h

lemma lines_newline_free (chs : List Channel) (hGs : ∀ ch ∈ chs, Good ch) :
    ∀ l ∈ create_m3u_lines chs, '\n' ∉ l := by
  intro l hl
  simp only [create_m3u_lines, List.mem_append] at hl
  rcases hl with (hl | hl) | hl
  · simp only [headerLines, List.mem_cons, List.not_mem_nil, or_false] at hl
    rcases hl with h | h | h | h | h | h | h <;> rw [h] <;> decide
  · obtain ⟨c, hc, hlc⟩ := List.mem_flatMap.1 hl
    have hcp : c ∈ presentCats chs := (mem_sorted_categories chs c).1 hc
    obtain ⟨ch0, hch0, hcat⟩ := (mem_presentCats chs c).1 hcp
    have hG0 : Good ch0 := hGs ch0 hch0
    have hcNl : '\n' ∉ c := by
      rw [← hcat, effCat_eq_getD ch0 hG0.gtS]
      exact hG0.gtNl
    simp only [sectionLines, List.mem_cons] at hlc
    rcases hlc with h | h
    · rw [h]
      intro hmem
      rcases List.mem_append.1 hmem with hmem | hmem
      · rcases List.mem_append.1 hmem with hmem | hmem
        · exact absurd hmem (by decide)
        · exact hcNl hmem
      · exact absurd hmem (by decide)
    · rcases List.mem_append.1 h with h | h
      · obtain ⟨ch, hch, hlch⟩ := List.mem_flatMap.1 h
        have hG : Good ch := hGs ch (List.mem_of_mem_filter hch)
        simp only [channelLines, List.mem_cons, List.not_mem_nil, or_false] at hlch
        rcases hlch with h2 | h2 | h2
        · rw [h2]; exact newline_not_mem_renderExtinf ch hG
        · rw [h2]; exact hG.urlNl
        · rw [h2]; simp
      · have h2 : l = [] := by simpa using h
        rw [h2]; simp
  · simp only [footerLines, List.mem_cons, List.not_mem_nil, or_false] at hl
    rcases hl with h | h | h | h <;> rw [h] <;> decide

/-! ## Claim C2: the round-trip core -/

lemma strip_create (chs : List Channel) (hGs : ∀ ch ∈ chs, Good ch) :
    splitNl (strip (create_m3u chs)) = create_m3u_lines chs := by
  unfold create_m3u
  have hne : create_m3u_lines chs ≠ [] := by simp [create_m3u_lines, headerLines]
  rw [joinNl_eq_iJoin _ hne]
  have hhead : ∀ a, (iJoin (create_m3u_lines chs)).head? = some a
      → isSpaceChar a = false := by
    intro a ha
    have h1 : (iJoin (create_m3u_lines chs)).head?
        = (str "#EXTM3U x-tvg-url=\x22https://www.tsepg.cf/epg.xml.gz\x22").head? := by
      show (iJoin ((str "#EXTM3U x-tvg-url=\x22https://www.tsepg.cf/epg.xml.gz\x22") :: _)).head? = _
      exact iJoin_head? _ _ (by decide)
    rw [h1] at ha
    have h4 : (str "#EXTM3U x-tvg-url=\x22https://www.tsepg.cf/epg.xml.gz\x22").head?
        = some '#' := rfl
    rw [h4] at ha
    rw [← Option.some_inj.1 ha]
    decide
  have hlast : ∀ a, (iJoin (create_m3u_lines chs)).getLast? = some a
      → isSpaceChar a = false := by
    intro a ha
    have h0 : (create_m3u_lines chs).getLast?
        = some (str "# =====================================") := by
      simp only [create_m3u_lines]
      rw [List.getLast?_append]
      have h2 : footerLines.getLast? = some (str "# =====================================") := by
        decide
      rw [h2]
      rfl
    have h1 := iJoin_getLast? (create_m3u_lines chs) _ h0 (by decide)
    rw [h1] at ha
    have : a = '=' := by
      have h3 : (str "# =====================================").getLast? = some '=' := by decide
      rw [h3] at ha
      exact (Option.some_inj.1 ha).symm
    rw [this]; decide
  rw [strip_append_newline _ hhead hlast]
  exact splitNl_iJoin _ hne (lines_newline_free chs hGs)

lemma roundtrip_core (chs : List Channel) (hGs : ∀ ch ∈ chs, Good ch) :
    parse_m3u (create_m3u chs)
      = (sorted_categories chs).flatMap
          (fun c => (bucket chs c).map
            (fun ch => { extractInfo (renderExtinf ch) with url := ch.url })) := by
  unfold parse_m3u
  rw [strip_create chs hGs]
  simp only [create_m3u_lines, List.append_assoc]
  rw [parseLines_header, parseLines_sections chs _ _ hGs, parseLines_footer]
  simp

/-! ## Claim C2: assembling the triples -/

lemma filter_flatMap (p : Channel → Bool) (l : List Str) (f : Str → List Channel) :
    (l.flatMap f).filter p = l.flatMap (fun a => (f a).filter p) := by
  induction l with
  | nil => rfl
  | cons a l ih => simp [List.flatMap_cons, List.filter_append, ih]

lemma good_gt_eq (ch : Channel) (hG : Good ch) (c : Str) (hb : effCat ch = c) :
    ch.group_title = some c := by
  rw [option_eq_some_getD ch.group_title hG.gtS, ← effCat_eq_getD ch hG.gtS, hb]

lemma reparse_fields (ch : Channel) (hG : Good ch) :
    ({ extractInfo (renderExtinf ch) with url := ch.url } : Channel).name = ch.name
    ∧ ({ extractInfo (renderExtinf ch) with url := ch.url } : Channel).group_title
        = ch.group_title
    ∧ ({ extractInfo (renderExtinf ch) with url := ch.url } : Channel).url = ch.url :=
  ⟨(extractInfo_render ch hG).1, (extractInfo_render ch hG).2, rfl⟩

lemma tripleOfCat_append (c : Str) (l1 l2 : List Channel) :
    tripleOfCat c (l1 ++ l2) = tripleOfCat c l1 ++ tripleOfCat c l2 := by
  simp [tripleOfCat, List.filter_append]

lemma section_filter (chs : List Channel) (hGs : ∀ ch ∈ chs, Good ch) (c c2 : Str) :
    tripleOfCat c ((bucket chs c2).map
        (fun ch => { extractInfo (renderExtinf ch) with url := ch.url }))
      = if c2 = c
        then (bucket chs c2).map (fun ch => (ch.name, ch.group_title, ch.url))
        else [] := by
  have hGb : ∀ ch ∈ bucket chs c2, Good ch :=
    fun ch hch => hGs ch (List.mem_of_mem_filter hch)
  have hgt : ∀ ch ∈ bucket chs c2, ch.group_title = some c2 := by
    intro ch hch
    exact good_gt_eq ch (hGb ch hch) c2 (by simpa using (List.mem_filter.1 hch).2)
  unfold tripleOfCat
  rw [List.filter_map]
  by_cases hcc : c2 = c
  · subst hcc
    rw [if_pos rfl]
    have hfix : List.filter
        ((fun ch => decide (ch.group_title = some c2))
          ∘ fun ch => { extractInfo (renderExtinf ch) with url := ch.url })
        (bucket chs c2) = bucket chs c2 := by
      refine List.filter_eq_self.2 fun ch hch => ?_
      have h1 := (reparse_fields ch (hGb ch hch)).2.1
      simp only [Function.comp]
      rw [h1]
      simp [hgt ch hch]
    rw [hfix, List.map_map]
    refine List.map_congr_left fun ch hch => ?_
    have h := reparse_fields ch (hGb ch hch)
    simp only [Function.comp]
    rw [h.1, h.2.1]
  · rw [if_neg hcc]
    have hfix : List.filter
        ((fun ch => decide (ch.group_title = some c))
          ∘ fun ch => { extractInfo (renderExtinf ch) with url := ch.url })
        (bucket chs c2) = [] := by
      refine List.filter_eq_nil_iff.2 fun ch hch => ?_
      have h1 := (reparse_fields ch (hGb ch hch)).2.1
      simp only [Function.comp]
      rw [h1, hgt ch hch]
      simp
      exact fun hc => hcc hc
    rw [hfix]
    rfl

lemma tripleOfCat_bucket (chs : List Channel) (hGs : ∀ ch ∈ chs, Good ch) (c : Str) :
    tripleOfCat c chs = (bucket chs c).map (fun ch => (ch.name, ch.group_title, ch.url)) := by
  unfold tripleOfCat bucket
  congr 1
  refine List.filter_congr fun ch hch => ?_
  have hG := hGs ch hch
  refine decide_eq_decide.2 ?_
  constructor
  · intro h
    simp [effCat, h]
  · intro h
    exact good_gt_eq ch hG c h

lemma tripleOfCat_nil_of_not_present (chs : List Channel) (c : Str)
    (hc : c ∉ presentCats chs) : tripleOfCat c chs = [] := by
  unfold tripleOfCat
  rw [List.filter_eq_nil_iff.2, List.map_nil]
  intro ch hch hgt
  refine hc ((mem_presentCats chs c).2 ⟨ch, hch, ?_⟩)
  have : ch.group_title = some c := by simpa using hgt
  simp [effCat, this]

lemma flatMap_tripleOfCat (chs : List Channel) (hGs : ∀ ch ∈ chs, Good ch) (c : Str) :
    ∀ cats : List Str, cats.Nodup →
      tripleOfCat c (cats.flatMap (fun c2 => (bucket chs c2).map
          (fun ch => { extractInfo (renderExtinf ch) with url := ch.url })))
        = if c ∈ cats
          then (bucket chs c).map (fun ch => (ch.name, ch.group_title, ch.url))
          else [] := by
  intro cats
  induction cats with
  | nil => intro _; simp [tripleOfCat]
  | cons c2 cats ih =>
    intro hnd
    rw [List.flatMap_cons, tripleOfCat_append,
      section_filter chs hGs c c2, ih (List.nodup_cons.1 hnd).2]
    by_cases hcc : c2 = c
    · subst hcc
      have hnotin : c2 ∉ cats := (List.nodup_cons.1 hnd).1
      rw [if_pos rfl, if_neg hnotin, if_pos (List.mem_cons_self c2 cats)]
      simp
    · rw [if_neg hcc]
      by_cases hmem : c ∈ cats
      · rw [if_pos hmem, if_pos (List.mem_cons_of_mem c2 hmem)]
        simp
      · rw [if_neg hmem, if_neg (by simp [hcc, hmem, List.mem_cons]; exact fun h => hcc h.symm)]
        rfl

/-! ## Claim C2 -/

/-- Counterexample to C2 as stated: a tvg-id attribute value containing a
comma shifts the name-extraction comma on re-parse, so the round-tripped
(name, category, url) triples differ from the original ones. -/
theorem c2_counterexample :
    tripleOfCat (str "Entertainment")
        (parse_m3u (create_m3u (parse_m3u (str "#EXTINF:-1 tvg-id=\x22a,b\x22,N\nu"))))
      ≠ tripleOfCat (str "Entertainment")
          (parse_m3u (str "#EXTINF:-1 tvg-id=\x22a,b\x22,N\nu")) := by
  decide

/-- Claim C2, amended: For record lists whose records are well-formed (`Good`:
name, category and url present, non-empty, trimmed, newline-free; category
comma- and quote-free; attribute values comma- and newline-free; the
serialized attribute block containing exactly one `group-title="` marker),
re-parsing the serialized playlist reproduces, for every category, exactly
the original (name, category, url) triples in their original relative
order. -/
theorem c2_roundtrip_amended (chs : List Channel) (hGs : ∀ ch ∈ chs, Good ch) (c : Str) :
    tripleOfCat c (parse_m3u (create_m3u chs)) = tripleOfCat c chs := by
  rw [roundtrip_core chs hGs]
  rw [flatMap_tripleOfCat chs hGs c (sorted_categories chs) (nodup_sorted_categories chs)]
  by_cases hc : c ∈ sorted_categories chs
  · rw [if_pos hc, tripleOfCat_bucket chs hGs c]
  · rw [if_neg hc]
    exact (tripleOfCat_nil_of_not_present chs c
      (fun h => hc ((mem_sorted_categories chs c).2 h))).symm

/-- Witness for C2 (amended) at a concrete one-record list. -/
theorem c2_roundtrip_amended_witness :
    (∀ ch ∈ [exC2ch], Good ch)
    ∧ tripleOfCat (str "Sports") (parse_m3u (create_m3u [exC2ch]))
        = tripleOfCat (str "Sports") [exC2ch] := by
  have hG : ∀ ch ∈ [exC2ch], Good ch := by
    intro ch hch
    rw [List.mem_singleton.1 hch]
    constructor <;> decide
  exact ⟨hG, c2_roundtrip_amended [exC2ch] hG (str "Sports")⟩

end SonGhar
